import Mathlib

/-!
Verification of the Silex desktop MCP bridge helpers (`window.__silexMcp` in
the Tauri webview bridge script) against their natural-language specification.

The definitions below are a shallow embedding of the bridge's JavaScript:
pure functions become Lean functions, the editor's mutable session state
(selected component, selected page, active style rule) is passed explicitly,
and JavaScript objects with optional keys become structures with `Option`
fields.  Behaviour that lives in external collaborators (the browser's CSS
engine, the GrapesJS plugin APIs) is abstracted as function parameters.
-/

namespace Silex

/-! ### String helpers

JavaScript's `String.prototype.split(sep)` and `toLowerCase`, re-implemented
over `List Char` so that the kernel can evaluate them on concrete inputs.
-/

/-- Split a character list on a separator character; JS `split` semantics
(the empty string yields `[""]`, adjacent separators yield empty segments). -/
def splitCharAux (sep : Char) : List Char → List Char → List (List Char)
  | [], acc => [acc.reverse]
  | c :: rest, acc =>
    if c == sep then acc.reverse :: splitCharAux sep rest []
    else splitCharAux sep rest (c :: acc)

/-- JS `s.split(sep)` for a one-character separator. -/
def jsSplit (sep : Char) (s : String) : List String :=
  (splitCharAux sep s.data []).map String.mk

/-- First character of a string, if any. -/
def headChar (s : String) : Option Char := s.data.head?

/-- JS `s.toLowerCase()` (ASCII case folding suffices for tag names). -/
def lowerStr (s : String) : String := String.mk (s.data.map Char.toLower)

/-! ### Expression resolver (`resolveExpression`)

Embeds the data-source schema consumed by `resolveExpression`: a data source
has an id, a list of root-level queryable fields, and a type registry; each
field carries an optional label, the list of type ids it resolves to, and an
optional kind.  `Option` fields model JS properties that may be `undefined`
(the source applies `?? fallback` to them).
-/

structure Field where
  id : String
  label : Option String := none
  typeIds : List String := []
  kind : Option String := none
  deriving Repr, DecidableEq

structure DSType where
  id : String
  fields : List Field := []
  deriving Repr, DecidableEq

structure DataSource where
  id : String
  queryables : List Field := []
  types : List DSType := []
  deriving Repr, DecidableEq

/-- One resolved token of a content-binding expression, as built by
`resolveExpression` (`type: 'property', propType: 'field'` are constant in the
source and omitted; the root token additionally records the data-source id). -/
structure Token where
  dataSourceId : Option String := none
  fieldId : String
  label : String
  typeIds : List String
  kind : String
  deriving Repr, DecidableEq

/-- Result of `resolveExpression`: either the token list or one of the error
objects the source returns (each error constructor carries the same payload
as the corresponding JS object: the failing segment, the `path_so_far` where
present, and the `available` candidate list). -/
inductive ResolveResult where
  | ok (tokens : List Token)
  | errTooFewSegments
  | errSourceNotFound (dsId : String) (available : List String)
  | errFieldNotFound (fieldId : String) (available : List String)
  | errSegmentNotFound (segIndex : Nat) (fieldId : String) (pathSoFar : String)
      (available : List String)
  deriving Repr, DecidableEq

/-- The fields scanned by the nested-segment loop: for every type of the
registry whose id is in the current frontier `cur`, all of its fields, in
registry order.  In the not-found case the source's `availableFields` list is
exactly the ids of these fields. -/
def fieldsSearched (types : List DSType) (cur : List String) : List Field :=
  ((types.filter (fun t => cur.contains t.id)).map (·.fields)).flatten

/-- First field among `fieldsSearched` whose id equals the segment: the
source scans types in order and, inside a type, fields in order, accepting
the first match. -/
def findField (types : List DSType) (cur : List String) (fid : String) : Option Field :=
  (fieldsSearched types cur).find? (fun f => f.id == fid)

/-- The per-segment loop of `resolveExpression` (`for (let seg = 1; ...)`).
`parts` is the full segment list (for `path_so_far`), `rest` the segments not
yet consumed, `seg` the index (into the field segments) of the next one,
`tokens` the accumulator and `cur` the current reachable-type-id frontier. -/
def resolveLoop (ds : DataSource) (parts : List String) :
    List String → Nat → List Token → List String → ResolveResult
  | [], _, tokens, _ => .ok tokens
  | nextFieldId :: rest, seg, tokens, cur =>
    match findField ds.types cur nextFieldId with
    | none =>
      .errSegmentNotFound (seg + 1) nextFieldId
        (String.intercalate "." (parts.take (seg + 2)))
        ((fieldsSearched ds.types cur).map (·.id))
    | some field =>
      resolveLoop ds parts rest (seg + 1)
        (tokens ++ [{ fieldId := field.id, label := field.label.getD field.id,
                      typeIds := field.typeIds, kind := field.kind.getD "scalar" }])
        field.typeIds

/-- `resolveExpression(editor, dotPath)`: split on dots, resolve segment 0 as
a data-source id, segment 1 as a queryable field of that source, and each
further segment through the types reachable from the previous token. -/
def resolveExpression (sources : List DataSource) (dotPath : String) : ResolveResult :=
  match jsSplit '.' dotPath with
  | [] => .errTooFewSegments
  | [_] => .errTooFewSegments
  | dsId :: fieldId :: restParts =>
    match sources.find? (fun d => d.id == dsId) with
    | none => .errSourceNotFound dsId (sources.map (·.id))
    | some ds =>
      match ds.queryables.find? (fun q => q.id == fieldId) with
      | none => .errFieldNotFound fieldId (ds.queryables.map (·.id))
      | some rootField =>
        resolveLoop ds (dsId :: fieldId :: restParts) restParts 1
          [{ dataSourceId := some dsId, fieldId := rootField.id,
             label := rootField.label.getD rootField.id,
             typeIds := rootField.typeIds, kind := rootField.kind.getD "object" }]
          rootField.typeIds

/-- Concrete schema used for concrete evaluations: a `blog` source whose
queryable `posts` reaches type `PostConnection`, which has a single field
`title`. -/
def blogDS : DataSource :=
  { id := "blog",
    queryables := [{ id := "posts", typeIds := ["PostConnection"], kind := some "list" }],
    types := [{ id := "PostConnection",
                fields := [{ id := "title", typeIds := ["String"] }] }] }

/-- The token list produced for `blog.posts.title` against `blogDS`. -/
def blogTokens : List Token :=
  [{ dataSourceId := some "blog", fieldId := "posts", label := "posts",
     typeIds := ["PostConnection"], kind := "list" },
   { fieldId := "title", label := "title", typeIds := ["String"], kind := "scalar" }]

/-! ### Style rule accessor (`validateCssProperties`, `setStyle`)

The browser's CSS engine (the throwaway `div` whose `style.setProperty` /
`getPropertyValue` round-trip decides acceptance) is abstracted as a
predicate `isValid : String → String → Bool`.  A declaration map is the
ordered list of its entries, as `Object.entries` produces them; the active
rule's declaration map is the style-rule state threaded through `setStyle`.
-/

/-- `validateCssProperties(props)`: each entry is pushed to `valid` or
`invalid` according to whether the throwaway style context accepted it. -/
def validateCssProperties (isValid : String → String → Bool)
    (props : List (String × String)) :
    List (String × String) × List (String × String) :=
  props.partition (fun e => isValid e.1 e.2)

/-- JS property lookup on an entry list: the value of the first entry with
the given key, if any. -/
def jsLookup (m : List (String × String)) (k : String) : Option String :=
  (m.find? (fun e => e.1 == k)).map (·.2)

/-- JS object spread `{...existing, ...props}`: existing keys keep their
position with values overridden by `props` where present; keys only in
`props` are appended in `props` order. -/
def mergeStyle (existing props : List (String × String)) : List (String × String) :=
  existing.map (fun e => (e.1, (jsLookup props e.1).getD e.2))
    ++ props.filter (fun q => jsLookup existing q.1 == none)

/-- The error object `setStyle` returns, modelled as a JS object with
optional keys: the source's rejection object is `{error, invalid}` and has
no `valid` key, so `valid := none` there. -/
structure StyleErr where
  error : String
  valid : Option (List (String × String)) := none
  invalid : Option (List (String × String)) := none
  deriving Repr, DecidableEq

/-- Result object of `setStyle`. -/
inductive SetStyleResult where
  | err (e : StyleErr)
  | ok (applied : List (String × String)) (resulting : List (String × String))
  deriving Repr, DecidableEq

/-- `setStyle(editor, props)`: fails if no rule is active; fails carrying the
invalid entries if any entry is rejected; otherwise merges the batch into
the rule's declaration map.  Returns the result object and the new rule
state. -/
def setStyle (isValid : String → String → Bool)
    (rule : Option (List (String × String))) (props : List (String × String)) :
    SetStyleResult × Option (List (String × String)) :=
  match rule with
  | none =>
    (.err { error := "No selector active. Use selector(action:select, selector:.classname) first." },
     none)
  | some existing =>
    if 0 < (validateCssProperties isValid props).2.length then
      (.err { error := "Invalid CSS properties",
              invalid := some (validateCssProperties isValid props).2 },
       some existing)
    else
      (.ok props (mergeStyle existing props), some (mergeStyle existing props))

/-- Concrete stand-in for the browser's CSS acceptance check: only the
property name `color` is accepted. -/
def cexIsValid : String → String → Bool := fun prop _ => prop == "color"

/-- Concrete property batch with one accepted and one rejected entry. -/
def cexProps : List (String × String) := [("color", "red"), ("beep", "boop")]

/-! ### Component tree

GrapesJS components as rose trees.  `CompData` holds the model attributes
the bridge reads and writes (`ccid`, `get('tagName')`, `get('type')`,
`get('content')`, `getClasses()`, `getStyle()`, `get('editable')`,
`get('label')`, `get('custom-name')`).
-/

structure CompData where
  ccid : String := ""
  tagName : String := "div"
  ctype : String := ""
  content : String := ""
  classes : List String := []
  style : List (String × String) := []
  editable : Bool := false
  label : Option String := none
  customName : Option String := none
  deriving Repr, DecidableEq

inductive Comp where
  | mk (data : CompData) (children : List Comp)
  deriving Repr

def dataOf : Comp → CompData
  | .mk d _ => d

def childrenOf : Comp → List Comp
  | .mk _ ch => ch

def rootCcid (c : Comp) : String := (dataOf c).ccid

mutual
/-- All nodes of a tree in preorder. -/
def allComp : Comp → List Comp
  | .mk d ch => .mk d ch :: allForest ch

def allForest : List Comp → List Comp
  | [] => []
  | c :: cs => allComp c ++ allForest cs
end

/-- The known text-bearing tags (`TEXT_TAGS` in the bridge). -/
def TEXT_TAGS : List String :=
  ["p", "h1", "h2", "h3", "h4", "h5", "h6", "span", "a", "li", "td", "th",
   "label", "blockquote"]

mutual
/-- The `strip` pass of `addComponent`: remove inline style declarations
from every node recursively, recording one warning per node whose styles
were stripped (warnings in preorder, as the source pushes them). -/
def stripComp : Comp → Comp × List String
  | .mk d ch =>
    let rest := stripForest ch
    if d.style.isEmpty then (.mk d rest.1, rest.2)
    else (.mk { d with style := [] } rest.1,
          ("Stripped inline styles from " ++ d.ccid) :: rest.2)

def stripForest : List Comp → List Comp × List String
  | [] => ([], [])
  | c :: cs =>
    let r := stripComp c
    let rs := stripForest cs
    (r.1 :: rs.1, r.2 ++ rs.2)
end

mutual
/-- The `setEditable` pass of `addComponent`: any node whose lower-cased tag
is a known text-bearing tag gets `type := "text"` and `editable := true`,
recursively. -/
def setEditableComp : Comp → Comp
  | .mk d ch =>
    let d' := if TEXT_TAGS.contains (lowerStr d.tagName)
              then { d with ctype := "text", editable := true } else d
    .mk d' (setEditableForest ch)

def setEditableForest : List Comp → List Comp
  | [] => []
  | c :: cs => setEditableComp c :: setEditableForest cs
end

/-- The nodes `addComponent` leaves in the tree for a given parsed forest:
the strip pass, then the editable-marking pass.  (The source inserts the raw
nodes first and then mutates them in place; the final tree content is the
same.) -/
def createdOf (nodes : List Comp) : List Comp :=
  setEditableForest (stripForest nodes).1

/-- Path-based access: a path is the list of child indices from a node. -/
def getAt : List Nat → Comp → Option Comp
  | [], c => some c
  | i :: p, .mk _ ch => (ch[i]?).bind (getAt p)

/-- Replace the element at an index, out-of-range indices untouched. -/
def modifyList {α : Type} (f : α → α) : List α → Nat → List α
  | [], _ => []
  | a :: l, 0 => f a :: l
  | a :: l, n + 1 => a :: modifyList f l n

/-- Apply `f` to the node at a path. -/
def modifyAt (f : Comp → Comp) : List Nat → Comp → Comp
  | [], c => f c
  | i :: p, .mk d ch => .mk d (modifyList (modifyAt f p) ch i)

mutual
/-- Depth-first search for the component with a ccid, returning its path
(the source's `findComponent` walk, first match in preorder). -/
def findPath (id : String) : Comp → Option (List Nat)
  | .mk d ch => if d.ccid == id then some [] else findPathList id ch 0

def findPathList (id : String) : List Comp → Nat → Option (List Nat)
  | [], _ => none
  | c :: cs, i =>
    match findPath id c with
    | some p => some (i :: p)
    | none => findPathList id cs (i + 1)
end

/-- Insert a block of elements at an index (GrapesJS `add(nodes, {at: i})`). -/
def insertManyAt {α : Type} (l : List α) (i : Nat) (xs : List α) : List α :=
  l.take i ++ xs ++ l.drop i

/-- Append nodes as last children (GrapesJS `add(nodes)` without `at`). -/
def appendAdded (nodes : List Comp) : Comp → Comp
  | .mk d ch => .mk d (ch ++ nodes)

/-- Insert nodes among the children at an index. -/
def insertAddedAt (i : Nat) (nodes : List Comp) : Comp → Comp
  | .mk d ch => .mk d (insertManyAt ch i nodes)

/-- Editor state relevant to the tree operations: the wrapper (root) and the
currently selected component. -/
structure Editor where
  wrapper : Comp
  selectedId : Option String
  deriving Repr

/-- Result object of `addComponent`. -/
inductive AddResult where
  | errNoParent (msg : String)
  | errSelLost (msg : String)
  | ok (component_ids : List String) (warnings : List String)
  deriving Repr, DecidableEq

/-- `addComponent(editor, html, position)` on the parsed node forest: choose
the insertion target (wrapper when nothing is selected, the selected node for
`inside`, its parent at its index — plus one for `after` — otherwise), insert
the nodes, strip inline styles with warnings, mark text-bearing tags
editable, and select the first added node.  The `errSelLost` arm covers a
selection whose id is not in the tree, which cannot happen in the live
editor. -/
def addComponent (ed : Editor) (newNodes : List Comp) (position : String) :
    AddResult × Editor :=
  let created := createdOf newNodes
  let warnings := (stripForest newNodes).2
  let ids := created.map rootCcid
  let selected' := match created.head? with
    | some c => some (rootCcid c)
    | none => ed.selectedId
  match ed.selectedId with
  | none =>
    (.ok ids warnings, { wrapper := appendAdded created ed.wrapper, selectedId := selected' })
  | some selId =>
    match findPath selId ed.wrapper with
    | none => (.errSelLost "Component not found", ed)
    | some p =>
      if position == "inside" then
        (.ok ids warnings,
         { wrapper := modifyAt (appendAdded created) p ed.wrapper, selectedId := selected' })
      else
        match p.getLast? with
        | none => (.errNoParent "Selected component has no parent", ed)
        | some i0 =>
          (.ok ids warnings,
           { wrapper := modifyAt
               (insertAddedAt (if position == "after" then i0 + 1 else i0) created)
               p.dropLast ed.wrapper,
             selectedId := selected' })

/-- Concrete wrapper with two children, used for concrete evaluations. -/
def cexWrapper : Comp :=
  .mk { ccid := "wrap" } [.mk { ccid := "n1" } [], .mk { ccid := "n2" } []]

/-- Concrete single parsed node. -/
def cexNewNode : Comp := .mk { ccid := "new" } []

/-- Concrete editor with the second child selected. -/
def cexEd : Editor := { wrapper := cexWrapper, selectedId := some "n2" }

/-- Concrete styled text node. -/
def cexStyledNode : Comp :=
  .mk { ccid := "s1", tagName := "h1", style := [("color", "red")] } []

/-- Concrete editor with no selection. -/
def cexEdNoSel : Editor := { wrapper := .mk { ccid := "wrap" } [], selectedId := none }

/-- The editor state after adding `cexStyledNode` with no selection. -/
def cexEdAfter : Editor :=
  { wrapper := .mk { ccid := "wrap" }
      [.mk { ccid := "s1", tagName := "h1", ctype := "text", editable := true } []],
    selectedId := some "s1" }

/-! ### Bounded tree walk (`getTree`)

`getTree` walks the component tree depth-first with a shared visited
counter and a depth parameter; the counter is threaded explicitly here.  A
returned node carries the fields the source builds: `id`, `tag`, `type`,
the joined class string, an optional truncated `text`, the visited
children, and an optional `children_count` set only on the depth-limit
branch.
-/

inductive TreeNode where
  | mk (id : String) (tag : String) (ctype : String) (classes : String)
       (text : Option String) (children : List TreeNode)
       (children_count : Option Nat)
  deriving Repr

mutual
/-- The `walk(c, d)` closure of `getTree`: returns `null` once the visited
counter reaches `maxCount`; otherwise visits the node, descending into
children only while `d < maxDepth` and reporting `children_count` instead
of descending on the depth-limit branch. -/
def walkComp (maxDepth maxCount : Nat) : Comp → Nat → Nat → Option TreeNode × Nat
  | .mk d ch, dep, cnt =>
    if maxCount ≤ cnt then (none, cnt)
    else
      let text := if d.ctype == "text" && !(d.content.data.isEmpty)
                  then some (String.mk (d.content.data.take 80)) else none
      if dep < maxDepth then
        let r := walkList maxDepth maxCount ch (dep + 1) (cnt + 1)
        (some (.mk d.ccid d.tagName d.ctype (String.intercalate " " d.classes)
          text r.1 none), r.2)
      else
        (some (.mk d.ccid d.tagName d.ctype (String.intercalate " " d.classes)
          text [] (some ch.length)), cnt + 1)

/-- The children loop of `walk`: child results are collected when non-null
and silently dropped when the child walk returned `null`. -/
def walkList (maxDepth maxCount : Nat) : List Comp → Nat → Nat → List TreeNode × Nat
  | [], _, cnt => ([], cnt)
  | c :: cs, dep, cnt =>
    let r := walkComp maxDepth maxCount c dep cnt
    let rs := walkList maxDepth maxCount cs dep r.2
    ((match r.1 with | some n => n :: rs.1 | none => rs.1), rs.2)
end

/-- `getTree(editor, maxDepth, maxCount)`: walk from the wrapper at depth 0
with the visited counter starting at 0. -/
def getTree (ed : Editor) (maxDepth maxCount : Nat) : Option TreeNode :=
  (walkComp maxDepth maxCount ed.wrapper 0 0).1

mutual
/-- Height (number of levels) of an output tree. -/
def heightT : TreeNode → Nat
  | .mk _ _ _ _ _ ch _ => 1 + heightF ch

def heightF : List TreeNode → Nat
  | [] => 0
  | t :: ts => max (heightT t) (heightF ts)
end

/-! ### Symbol registry (`findSymbolByLabel`)

The cross-page search temporarily selects each page (`editor.Pages.select`)
and walks its wrapper.  Selection state is the page id in `PagesState`.  A
page whose wrapper is `.error m` models a page whose tree retrieval or walk
throws; the source has no try/finally around the loop, so the embedding
propagates the exception together with the selection state at that moment.
-/

/-- A component's display label: `c.get('label') ?? c.get('custom-name')`. -/
def symbolLabel (c : Comp) : Option String := (dataOf c).label <|> (dataOf c).customName

mutual
/-- The `findInTree` walk of `findSymbolByLabel`: first node (preorder)
whose label (defaulted to the empty string) equals the target. -/
def findInTree (label : String) : Comp → Option Comp
  | .mk d ch =>
    if ((d.label <|> d.customName).getD "") == label then some (.mk d ch)
    else findInTreeList label ch

def findInTreeList (label : String) : List Comp → Option Comp
  | [] => none
  | c :: cs =>
    match findInTree label c with
    | some r => some r
    | none => findInTreeList label cs
end

/-- A page: id plus its tree; `.error m` models a wrapper whose walk
throws. -/
structure Page where
  id : String
  wrapper : Except String Comp

/-- Page collection plus the currently selected page. -/
structure PagesState where
  pages : List Page
  selectedId : String

/-- The page loop of `findSymbolByLabel`: select each page in turn, walk
it, break on a match; after the loop (or the break) re-select the saved
page.  An exception propagates immediately, leaving whatever page was
selected at that moment. -/
def searchLoop (label saved : String) :
    List Page → PagesState → Except (String × PagesState) (Option Comp × PagesState)
  | [], st => .ok (none, { st with selectedId := saved })
  | pg :: rest, st =>
    let st1 := { st with selectedId := pg.id }
    match pg.wrapper with
    | .error m => .error (m, st1)
    | .ok w =>
      match findInTree label w with
      | some found => .ok (some found, { st1 with selectedId := saved })
      | none => searchLoop label saved rest st1

/-- `findSymbolByLabel(editor, label)`: check the orphan symbol list first,
then search every page's tree, restoring the saved page on the normal exit
paths. -/
def findSymbolByLabel (orphans : List Comp) (st : PagesState) (label : String) :
    Except (String × PagesState) (Option Comp × PagesState) :=
  match orphans.find? (fun s => symbolLabel s == some label) with
  | some orphan => .ok (some orphan, st)
  | none => searchLoop label st.selectedId st.pages st

/-- Page A with an ordinary (label-free) tree. -/
def pageA : Page := { id := "A", wrapper := .ok (.mk { ccid := "wa" } []) }

/-- Page B whose tree walk throws. -/
def pageB : Page := { id := "B", wrapper := .error "walk failed" }

/-- Page collection with page A selected. -/
def cexPages : PagesState := { pages := [pageA, pageB], selectedId := "A" }

/-! ### Selector resolution (`selectSelector` and the server-side prefix
correction)

`selectSelector` consumes the advanced-selector plugin API, abstracted as
optional functions: `csFromString` models `complexSelectorFromString` (it
may throw, return `null`, or return a parsed selector) and `matchAll`
models `matchSelectorAll`.
-/

structure SelectorApi where
  hasEditStyle : Bool
  csFromString : Option (String → Except String Bool)
  matchAll : Option (String → Bool)

inductive SelectResult where
  | errNoComponent (msg : String)
  | errNoApi (msg : String)
  | errBadSelector (msg : String)
  | errThrown (msg : String)
  | errNoMatch (msg : String)
  | ok (selector : String)
  deriving Repr, DecidableEq

/-- The `matchSelectorAll` step and final activation of `selectSelector`. -/
def matchStep (api : SelectorApi) (s : String) : SelectResult :=
  match api.matchAll with
  | some g =>
    if g s then .ok s
    else .errNoMatch ("Selector does not match the selected component: " ++ s)
  | none => .ok s

/-- `selectSelector(editor, selectorStr)`: requires a selected component and
the plugin's `editStyle`; validates the selector when the parse API is
present; checks the match when the match API is present; then activates the
selector. -/
def selectSelector (api : SelectorApi) (hasSelected : Bool) (s : String) : SelectResult :=
  if !hasSelected then
    .errNoComponent "No component selected. Use component(action:select) first."
  else if !api.hasEditStyle then .errNoApi "Advanced selector plugin not available"
  else
    match api.csFromString with
    | some f =>
      match f s with
      | .error m => .errThrown ("Invalid selector syntax: " ++ m)
      | .ok false => .errBadSelector ("Invalid selector: " ++ s)
      | .ok true => matchStep api s
    | none => matchStep api s

/-- Modelled from the spec: the selector auto-correction performed by the
MCP server's validation layer before the bridge is invoked (it lives in
`src-tauri/src/mcp.rs`, which is not among the sources): "Auto-prepends `.`
if selector doesn't start with `.` or `#`" and "the correction is
reported". -/
def normalizeSelector (s : String) : String × Bool :=
  if headChar s == some '.' || headChar s == some '#' then (s, false)
  else ("." ++ s, true)

/-- Selector resolution as seen by a tool caller: normalization followed by
`selectSelector`; the second component reports whether a correction was
applied. -/
def resolveSelector (api : SelectorApi) (hasSelected : Bool) (s : String) :
    SelectResult × Bool :=
  (selectSelector api hasSelected (normalizeSelector s).1, (normalizeSelector s).2)

/-- Concrete plugin surface with neither optional API present. -/
def cexSelectorApi : SelectorApi :=
  { hasEditStyle := true, csFromString := none, matchAll := none }

/-! ### Theorems -/

example :
    resolveExpression [blogDS] "blog.posts.title" =
      .ok [{ dataSourceId := some "blog", fieldId := "posts", label := "posts",
             typeIds := ["PostConnection"], kind := "list" },
           { fieldId := "title", label := "title", typeIds := ["String"],
             kind := "scalar" }] := rfl

example :
    resolveExpression [blogDS] "blog.posts.nope" =
      .errSegmentNotFound 2 "nope" "blog.posts.nope" ["title"] := rfl

example :
    resolveExpression [blogDS] "blog.nope" =
      .errFieldNotFound "nope" ["posts"] := rfl

example :
    resolveExpression [blogDS] "nope.posts" =
      .errSourceNotFound "nope" ["blog"] := rfl

/-- On success the loop returns the accumulator extended by one token per
remaining segment. -/
theorem resolveLoop_ok_length (ds : DataSource) (parts : List String) :
    ∀ (rest : List String) (seg : Nat) (toks : List Token) (cur : List String)
      (tokens : List Token),
    resolveLoop ds parts rest seg toks cur = .ok tokens →
    tokens.length = toks.length + rest.length := by
  intro rest
  induction rest with
  | nil =>
    intro seg toks cur tokens h
    rw [resolveLoop] at h
    cases h
    simp
  | cons a rest ih =>
    intro seg toks cur tokens h
    rw [resolveLoop] at h
    cases hf : findField ds.types cur a with
    | none => rw [hf] at h; cases h
    | some fld =>
      rw [hf] at h
      have := ih (seg + 1) _ fld.typeIds tokens h
      simp at this
      simp [this]
      omega

/-- The loop only ever returns `.ok` or `.errSegmentNotFound`. -/
theorem resolveLoop_ok_or_seg (ds : DataSource) (parts : List String) :
    ∀ (rest : List String) (seg : Nat) (toks : List Token) (cur : List String),
    (∃ tokens, resolveLoop ds parts rest seg toks cur = .ok tokens) ∨
    (∃ i f p a, resolveLoop ds parts rest seg toks cur = .errSegmentNotFound i f p a) := by
  intro rest
  induction rest with
  | nil => intro seg toks cur; exact .inl ⟨toks, by rw [resolveLoop]⟩
  | cons a rest ih =>
    intro seg toks cur
    cases hf : findField ds.types cur a with
    | none =>
      exact .inr ⟨seg + 1, a, String.intercalate "." (parts.take (seg + 2)),
        (fieldsSearched ds.types cur).map (·.id), by rw [resolveLoop, hf]⟩
    | some fld =>
      have := ih (seg + 1)
        (toks ++ [{ fieldId := fld.id, label := fld.label.getD fld.id,
                    typeIds := fld.typeIds, kind := fld.kind.getD "scalar" }])
        fld.typeIds
      rcases this with ⟨tokens, h⟩ | ⟨i, f, p, av, h⟩
      · exact .inl ⟨tokens, by rw [resolveLoop, hf]; exact h⟩
      · exact .inr ⟨i, f, p, av, by rw [resolveLoop, hf]; exact h⟩

/-- When the loop fails it names the failing segment (as an index into the
full segment list plus one relative to the consumed prefix), the dot-path up
to and including that segment, and exactly the ids of the fields that were
searched at that point. -/
theorem resolveLoop_err_spec (ds : DataSource) (parts : List String) :
    ∀ (rest : List String) (seg : Nat) (toks : List Token) (cur : List String)
      (i : Nat) (f p : String) (avail : List String),
    resolveLoop ds parts rest seg toks cur = .errSegmentNotFound i f p avail →
    ∃ k cur', k < rest.length ∧ i = seg + k + 1 ∧ f = rest.getD k "" ∧
      p = String.intercalate "." (parts.take (i + 1)) ∧
      avail = (fieldsSearched ds.types cur').map (·.id) := by
  intro rest
  induction rest with
  | nil => intro seg toks cur i f p avail h; rw [resolveLoop] at h; cases h
  | cons a rest ih =>
    intro seg toks cur i f p avail h
    rw [resolveLoop] at h
    cases hf : findField ds.types cur a with
    | none =>
      rw [hf] at h
      cases h
      exact ⟨0, cur, by simp, by omega, by simp, by norm_num, rfl⟩
    | some fld =>
      rw [hf] at h
      obtain ⟨k, cur', hk, hi, hf2, hp2, ha⟩ := ih (seg + 1) _ fld.typeIds i f p avail h
      refine ⟨k + 1, cur', by simpa using Nat.succ_lt_succ hk, by omega, by simpa using hf2,
        hp2, ha⟩

/-- C1, amended: for a fully valid dot-path the resolver returns one token
per field segment, i.e. the token count is the dot-separated segment count
minus one (no token is emitted for the data-source segment). -/
theorem resolveExpression_ok_length (sources : List DataSource) (dotPath : String)
    (tokens : List Token) (h : resolveExpression sources dotPath = .ok tokens) :
    tokens.length + 1 = (jsSplit '.' dotPath).length := by
  unfold resolveExpression at h
  split at h
  · cases h
  · cases h
  next dsId fieldId restParts heq =>
    split at h
    · cases h
    next ds hds =>
      split at h
      · cases h
      next rootField hrf =>
        have := resolveLoop_ok_length ds _ restParts 1 _ _ tokens h
        rw [heq]
        simp at this
        simp [this]
        omega

/-- C1 counterexample: `blog.posts.title` has three dot-separated segments
but resolves to a token sequence of length two, refuting the claim that the
token count equals the segment count. -/
theorem resolveExpression_token_count_cex :
    resolveExpression [blogDS] "blog.posts.title" = .ok blogTokens ∧
    (jsSplit '.' "blog.posts.title").length = 3 ∧ blogTokens.length ≠ 3 :=
  ⟨rfl, rfl, by decide⟩

/-- Witness for `resolveExpression_ok_length` at the concrete input
`blog.posts.title` against `blogDS`. -/
theorem resolveExpression_ok_length_witness :
    blogTokens.length + 1 = (jsSplit '.' "blog.posts.title").length :=
  resolveExpression_ok_length [blogDS] "blog.posts.title" blogTokens rfl

/-- C4: every resolver error names the first invalid segment — segment 0 for
an unknown source, segment 1 for an unknown queryable, and for a nested
segment its index into the dot-path and the dot-path up to and including it
— and the accompanying candidate list is exactly the ids available at that
point (all source ids, all queryable ids, or all field ids searched), hence
non-empty whenever that part of the schema is non-empty. -/
theorem resolveExpression_error_naming (sources : List DataSource) (dotPath : String) :
    (∀ d avail, resolveExpression sources dotPath = .errSourceNotFound d avail →
      d = (jsSplit '.' dotPath).getD 0 "" ∧ avail = sources.map (·.id) ∧
      (sources ≠ [] → avail ≠ [])) ∧
    (∀ f avail, resolveExpression sources dotPath = .errFieldNotFound f avail →
      f = (jsSplit '.' dotPath).getD 1 "" ∧
      ∃ ds, sources.find? (fun s => s.id == (jsSplit '.' dotPath).getD 0 "") = some ds ∧
        avail = ds.queryables.map (·.id) ∧ (ds.queryables ≠ [] → avail ≠ [])) ∧
    (∀ i f p avail, resolveExpression sources dotPath = .errSegmentNotFound i f p avail →
      2 ≤ i ∧ i < (jsSplit '.' dotPath).length ∧ f = (jsSplit '.' dotPath).getD i "" ∧
      p = String.intercalate "." ((jsSplit '.' dotPath).take (i + 1)) ∧
      ∃ ds cur, sources.find? (fun s => s.id == (jsSplit '.' dotPath).getD 0 "") = some ds ∧
        avail = (fieldsSearched ds.types cur).map (·.id) ∧
        (fieldsSearched ds.types cur ≠ [] → avail ≠ [])) := by
  refine ⟨?_, ?_, ?_⟩
  · intro d avail h
    unfold resolveExpression at h
    split at h
    · cases h
    · cases h
    next dsId fieldId restParts heq =>
      split at h
      next hds =>
        cases h
        refine ⟨by rw [heq]; rfl, rfl, ?_⟩
        intro hne hmap
        exact hne (by simpa using hmap)
      next ds hds =>
        split at h
        · cases h
        next rootField hrf =>
          rcases resolveLoop_ok_or_seg ds _ restParts 1 _ _ with
            ⟨t, hl⟩ | ⟨i, f, p, a, hl⟩ <;> rw [hl] at h <;> cases h
  · intro f avail h
    unfold resolveExpression at h
    split at h
    · cases h
    · cases h
    next dsId fieldId restParts heq =>
      split at h
      · cases h
      next ds hds =>
        split at h
        next hrf =>
          cases h
          refine ⟨by rw [heq]; rfl, ds, ?_, rfl, ?_⟩
          · rw [heq]; simpa using hds
          · intro hne hmap
            exact hne (by simpa using hmap)
        next rootField hrf =>
          rcases resolveLoop_ok_or_seg ds _ restParts 1 _ _ with
            ⟨t, hl⟩ | ⟨i, f', p, a, hl⟩ <;> rw [hl] at h <;> cases h
  · intro i f p avail h
    unfold resolveExpression at h
    split at h
    · cases h
    · cases h
    next dsId fieldId restParts heq =>
      split at h
      · cases h
      next ds hds =>
        split at h
        · cases h
        next rootField hrf =>
          obtain ⟨k, cur', hk, hi, hf2, hp2, ha⟩ :=
            resolveLoop_err_spec ds _ restParts 1 _ _ i f p avail h
          rw [heq]
          refine ⟨by omega, by simp; omega, ?_, hp2, ds, cur', ?_, ha, ?_⟩
          · rw [hf2, hi]
            have h2 : 1 + k + 1 = k + 2 := by omega
            rw [h2]
            simp [List.getD]
          · simpa using hds
          · intro hne hmap
            rw [ha] at hmap
            exact hne (by simpa using hmap)

/-- Witness for `resolveExpression_error_naming` at the concrete input
`blog.posts.nope`, whose failing segment has index 2 and whose candidate
list `["title"]` is non-empty. -/
theorem resolveExpression_error_naming_witness :
    resolveExpression [blogDS] "blog.posts.nope" =
      .errSegmentNotFound 2 "nope" "blog.posts.nope" ["title"] ∧
    "nope" = (jsSplit '.' "blog.posts.nope").getD 2 "" ∧
    (["title"] : List String) ≠ [] := by
  have h := (resolveExpression_error_naming [blogDS] "blog.posts.nope").2.2
    2 "nope" "blog.posts.nope" ["title"] rfl
  exact ⟨rfl, h.2.2.1, by decide⟩

/-- Complementary filters split a list's length. -/
theorem filter_length_split {α : Type} (p : α → Bool) (l : List α) :
    (l.filter p).length + (l.filter (fun a => !(p a))).length = l.length := by
  induction l with
  | nil => simp
  | cons a l ih =>
    by_cases h : p a <;> simp [List.filter_cons, h] <;> omega

/-- An element rejected by the filter predicate does not occur in the
filtered list. -/
theorem count_filter_not {α : Type} [BEq α] [LawfulBEq α] (p : α → Bool) (l : List α)
    (a : α) (h : p a = false) : (l.filter p).count a = 0 := by
  induction l with
  | nil => simp
  | cons b l ih =>
    by_cases hb : p b
    · have hba : (b == a) = false := by
        by_contra hc
        simp only [Bool.not_eq_false, beq_iff_eq] at hc
        rw [hc, h] at hb
        cases hb
      simp [List.filter_cons, hb, List.count_cons, hba, ih]
    · simp [List.filter_cons, hb, ih]

/-- Complementary filters split every element's multiplicity. -/
theorem filter_count_split {α : Type} [BEq α] [LawfulBEq α] (p : α → Bool) (l : List α)
    (e : α) :
    (l.filter p).count e + (l.filter (fun a => !(p a))).count e = l.count e := by
  induction l with
  | nil => simp
  | cons a l ih =>
    by_cases he : a = e
    · subst he
      by_cases h : p a
      · have h0 : (l.filter (fun x => !(p x))).count a = 0 :=
          count_filter_not _ l a (by simp [h])
        simp only [List.filter_cons, h, if_pos, List.count_cons, Bool.not_true,
          Bool.not_eq_true'] at *
        simp [List.count_cons] at *
        omega
      · have h0 : (l.filter p).count a = 0 :=
          count_filter_not p l a (by simpa using h)
        simp only [List.filter_cons] at *
        simp [List.count_cons, h] at *
        omega
    · by_cases h : p a <;> simp [List.filter_cons, List.count_cons, h, he] <;> omega

/-- C10: `validateCssProperties` partitions its input: the two output lists
together have as many entries as the input, and every entry occurs in the
two outputs, counted together, exactly as often as in the input. -/
theorem validateCssProperties_partition (isValid : String → String → Bool)
    (props : List (String × String)) :
    (validateCssProperties isValid props).1.length +
      (validateCssProperties isValid props).2.length = props.length ∧
    ∀ e : String × String,
      (validateCssProperties isValid props).1.count e +
        (validateCssProperties isValid props).2.count e = props.count e := by
  unfold validateCssProperties
  rw [List.partition_eq_filter_filter]
  refine ⟨?_, fun e => ?_⟩
  · have := filter_length_split (fun e : String × String => isValid e.1 e.2) props
    simpa [Function.comp] using this
  · have := filter_count_split (fun e : String × String => isValid e.1 e.2) props e
    simpa [Function.comp] using this

/-- C3 counterexample: for a batch with one valid and one invalid entry the
rejection object carries only the invalid entries — its `valid` key is
absent (`none`) even though the valid part of the partition is non-empty —
refuting the claim that the error carries the valid/invalid partition. -/
theorem setStyle_partition_cex :
    (setStyle cexIsValid (some []) cexProps).1 =
      .err { error := "Invalid CSS properties", invalid := some [("beep", "boop")] } ∧
    (validateCssProperties cexIsValid cexProps).1 = [("color", "red")] ∧
    StyleErr.valid { error := "Invalid CSS properties",
                     invalid := some [("beep", "boop")] } = none :=
  ⟨rfl, rfl, rfl⟩

/-- C3, amended: if any entry of the batch fails validation, `setStyle`
returns an error carrying the invalid entries (the valid ones are not
included in the error) and leaves the rule's declaration map unchanged. -/
theorem setStyle_reject_no_mutation (isValid : String → String → Bool)
    (existing props : List (String × String))
    (h : (validateCssProperties isValid props).2 ≠ []) :
    setStyle isValid (some existing) props =
      (.err { error := "Invalid CSS properties",
              invalid := some (validateCssProperties isValid props).2 },
       some existing) := by
  unfold setStyle
  have hl : 0 < (validateCssProperties isValid props).2.length := List.length_pos.mpr h
  simp [hl]

/-- Witness for `setStyle_reject_no_mutation` at a concrete rule state and
batch. -/
theorem setStyle_reject_no_mutation_witness :
    setStyle cexIsValid (some [("margin", "0")]) cexProps =
      (.err { error := "Invalid CSS properties", invalid := some [("beep", "boop")] },
       some [("margin", "0")]) :=
  setStyle_reject_no_mutation cexIsValid [("margin", "0")] cexProps (by decide)

/-- A key is absent from an entry list iff no entry has it. -/
theorem jsLookup_eq_none_iff (m : List (String × String)) (k : String) :
    jsLookup m k = none ↔ ∀ e ∈ m, (e.1 == k) = false := by
  unfold jsLookup
  constructor
  · intro h e hm
    rcases hf : m.find? (fun e => e.1 == k) with _ | x
    · have := List.find?_eq_none.mp hf e hm
      simpa using this
    · rw [hf] at h
      cases h
  · intro h
    have hf : m.find? (fun e => e.1 == k) = none :=
      List.find?_eq_none.mpr (fun x hx => by simp [h x hx])
    rw [hf]
    rfl

/-- With pairwise-distinct keys, lookup of a member entry's key yields its
value. -/
theorem jsLookup_nodup_mem (p : List (String × String)) (k v : String)
    (hnd : (p.map Prod.fst).Nodup) (hmem : (k, v) ∈ p) : jsLookup p k = some v := by
  induction p with
  | nil => cases hmem
  | cons a l ih =>
    simp only [List.map_cons, List.nodup_cons] at hnd
    rcases List.mem_cons.mp hmem with h | h
    · rw [← h]
      unfold jsLookup
      rw [List.find?_cons_of_pos _ (by simp)]
      rfl
    · have hk : a.1 ≠ k := by
        intro hak
        apply hnd.1
        exact List.mem_map.mpr ⟨(k, v), h, by simp [hak]⟩
      unfold jsLookup
      rw [List.find?_cons_of_neg _ (by simp [hk])]
      exact ih hnd.2 h

/-- A found element satisfies the search predicate. -/
theorem find?_pred {α : Type} (p : α → Bool) (l : List α) (a : α)
    (h : l.find? p = some a) : p a = true := by
  induction l with
  | nil => cases h
  | cons b l ih =>
    by_cases hb : p b
    · rw [List.find?_cons_of_pos _ hb] at h
      cases h
      exact hb
    · rw [List.find?_cons_of_neg _ hb] at h
      exact ih h

/-- Every key of `props` is present in `mergeStyle existing props`, so
re-merging appends nothing. -/
theorem mergeStyle_filter_nil (existing props : List (String × String)) :
    props.filter (fun q => jsLookup (mergeStyle existing props) q.1 == none) = [] := by
  rw [List.filter_eq_nil_iff]
  intro q hq
  simp only [beq_iff_eq, Bool.not_eq_true]
  intro hnone
  rw [jsLookup_eq_none_iff] at hnone
  by_cases hex : jsLookup existing q.1 = none
  · have hqm : q ∈ mergeStyle existing props := by
      unfold mergeStyle
      exact List.mem_append.mpr (.inr (List.mem_filter.mpr ⟨hq, by simp [hex]⟩))
    have := hnone q hqm
    simp at this
  · rcases hfind : existing.find? (fun e => e.1 == q.1) with _ | e₀
    · exact hex (by unfold jsLookup; rw [hfind]; rfl)
    · have he₀ : e₀ ∈ existing := List.mem_of_find?_eq_some hfind
      have hp₀ := find?_pred (fun e : String × String => e.1 == q.1) existing e₀ hfind
      have hm : (e₀.1, (jsLookup props e₀.1).getD e₀.2) ∈ mergeStyle existing props := by
        unfold mergeStyle
        exact List.mem_append.mpr (.inl (List.mem_map.mpr ⟨e₀, he₀, rfl⟩))
      have := hnone _ hm
      simp at this hp₀
      exact this hp₀

/-- Re-applying the override map of a batch with pairwise-distinct keys to a
merged list changes nothing. -/
theorem mergeStyle_map_fix (existing props : List (String × String))
    (hnd : (props.map Prod.fst).Nodup) :
    (mergeStyle existing props).map (fun e => (e.1, (jsLookup props e.1).getD e.2))
      = mergeStyle existing props := by
  unfold mergeStyle
  rw [List.map_append, List.map_map]
  congr 1
  · apply List.map_congr_left
    intro a _
    simp only [Function.comp]
    rcases h : jsLookup props a.1 with _ | w <;> simp [h]
  · have hfix : ∀ q ∈ props.filter (fun q => jsLookup existing q.1 == none),
        (fun e : String × String => (e.1, (jsLookup props e.1).getD e.2)) q = q := by
      intro q hq
      have hq' : q ∈ props := (List.mem_filter.mp hq).1
      have := jsLookup_nodup_mem props q.1 q.2 hnd (by simpa using hq')
      simp [this]
    rw [List.map_congr_left hfix]
    simp

/-- Merging the same batch twice is the same as merging it once. -/
theorem mergeStyle_idem (existing props : List (String × String))
    (hnd : (props.map Prod.fst).Nodup) :
    mergeStyle (mergeStyle existing props) props = mergeStyle existing props := by
  show (mergeStyle existing props).map (fun e => (e.1, (jsLookup props e.1).getD e.2))
      ++ props.filter (fun q => jsLookup (mergeStyle existing props) q.1 == none)
    = mergeStyle existing props
  rw [mergeStyle_map_fix existing props hnd, mergeStyle_filter_nil existing props,
    List.append_nil]

/-- C7: `setStyle` with an all-valid batch is idempotent — applying the same
successful batch twice returns the same result and the same final
declaration map as applying it once (the merge adds new keys and overwrites
existing ones). -/
theorem setStyle_idempotent (isValid : String → String → Bool)
    (existing props : List (String × String))
    (hnd : (props.map Prod.fst).Nodup)
    (hvalid : (validateCssProperties isValid props).2 = []) :
    setStyle isValid (setStyle isValid (some existing) props).2 props
      = setStyle isValid (some existing) props := by
  unfold setStyle
  simp [hvalid, mergeStyle_idem existing props hnd]

/-- Witness for `setStyle_idempotent` at a concrete rule state and batch. -/
theorem setStyle_idempotent_witness :
    setStyle cexIsValid (setStyle cexIsValid (some [("margin", "0")]) [("color", "red")]).2
        [("color", "red")]
      = setStyle cexIsValid (some [("margin", "0")]) [("color", "red")] :=
  setStyle_idempotent cexIsValid [("margin", "0")] [("color", "red")] (by decide) (by decide)

/-- Mutual induction over the nested component tree, packaged from the
auto-generated recursor. -/
theorem comp_ind (P : Comp → Prop) (Q : List Comp → Prop)
    (h1 : ∀ d ch, Q ch → P (Comp.mk d ch))
    (hnil : Q [])
    (hcons : ∀ c cs, P c → Q cs → Q (c :: cs)) : ∀ c, P c :=
  fun c => Comp.rec h1 hnil hcons c

/-- Forest version of `comp_ind`. -/
theorem forest_ind (P : Comp → Prop) (Q : List Comp → Prop)
    (h1 : ∀ d ch, Q ch → P (Comp.mk d ch))
    (hnil : Q [])
    (hcons : ∀ c cs, P c → Q cs → Q (c :: cs)) : ∀ l, Q l := by
  intro l
  induction l with
  | nil => exact hnil
  | cons c cs ih => exact hcons c cs (comp_ind P Q h1 hnil hcons c) ih

example : findPath "n2" cexWrapper = some [1] := rfl

example : getAt [1] cexWrapper = some (.mk { ccid := "n2" } []) := rfl

example :
    (addComponent cexEd [cexNewNode] "after").2.wrapper =
      .mk { ccid := "wrap" }
        [.mk { ccid := "n1" } [], .mk { ccid := "n2" } [], .mk { ccid := "new" } []] := rfl

example :
    (addComponent cexEd [cexNewNode] "before").2.wrapper =
      .mk { ccid := "wrap" }
        [.mk { ccid := "n1" } [], .mk { ccid := "new" } [], .mk { ccid := "n2" } []] := rfl

/-- Modifying at an index changes exactly that index. -/
theorem getElem?_modifyList {α : Type} (f : α → α) (l : List α) (i : Nat) :
    (modifyList f l i)[i]? = (l[i]?).map f := by
  induction l generalizing i with
  | nil => simp [modifyList]
  | cons a l ih =>
    cases i with
    | zero => simp [modifyList]
    | succ n => simpa [modifyList] using ih n

/-- Path lookup distributes over path concatenation. -/
theorem getAt_append (p q : List Nat) (c : Comp) :
    getAt (p ++ q) c = (getAt p c).bind (getAt q) := by
  induction p generalizing c with
  | nil => simp [getAt]
  | cons i p ih =>
    cases c with
    | mk d ch =>
      simp only [List.cons_append, getAt]
      cases hch : ch[i]? with
      | none => simp
      | some c' => simp [ih]

/-- `modifyAt` rewrites the node at a valid path. -/
theorem getAt_modifyAt (f : Comp → Comp) (p : List Nat) (c x : Comp)
    (h : getAt p c = some x) : getAt p (modifyAt f p c) = some (f x) := by
  induction p generalizing c with
  | nil =>
    simp only [getAt, Option.some.injEq] at h
    simp [getAt, modifyAt, h]
  | cons i p ih =>
    cases c with
    | mk d ch =>
      simp only [getAt, modifyAt] at *
      cases hch : ch[i]? with
      | none => rw [hch] at h; cases h
      | some c' =>
        rw [hch] at h
        have h2 : getAt p c' = some x := h
        rw [getElem?_modifyList, hch]
        simpa using ih c' h2

/-- A list is its own front extended by its last element. -/
theorem dropLast_append_of_getLast {α : Type} (p : List α) (i : α)
    (h : p.getLast? = some i) : p.dropLast ++ [i] = p := by
  induction p with
  | nil => cases h
  | cons a l ih =>
    cases l with
    | nil =>
      simp [List.getLast?] at h
      simp [h]
    | cons b m =>
      rw [List.getLast?_cons_cons] at h
      have := ih h
      simpa [List.dropLast_cons₂] using this

/-- C5: the insertion target of `addComponent` — with no selection the
created nodes are appended at the root; with position `inside` they become
the last children of the selected node; otherwise they are inserted into the
selected node's parent at the selected node's prior index (`before`), or at
that index plus one (`after`). -/
theorem addComponent_insert_position (ed : Editor) (nodes : List Comp) (position : String) :
    (ed.selectedId = none →
      (addComponent ed nodes position).2.wrapper
        = appendAdded (createdOf nodes) ed.wrapper) ∧
    (∀ selId p selNode, ed.selectedId = some selId →
      findPath selId ed.wrapper = some p → getAt p ed.wrapper = some selNode →
      (position = "inside" →
        getAt p (addComponent ed nodes position).2.wrapper
          = some (appendAdded (createdOf nodes) selNode)) ∧
      (position ≠ "inside" → ∀ i0, p.getLast? = some i0 →
        ∀ par, getAt p.dropLast ed.wrapper = some par →
        (childrenOf par)[i0]? = some selNode ∧
        getAt p.dropLast (addComponent ed nodes position).2.wrapper
          = some (insertAddedAt (if position = "after" then i0 + 1 else i0)
              (createdOf nodes) par))) := by
  constructor
  · intro h
    simp [addComponent, h]
  · intro selId p selNode hsel hfind hget
    constructor
    · intro hpos
      have hbeq : (position == "inside") = true := by simp [hpos]
      simp only [addComponent, hsel, hfind, hbeq, if_true]
      exact getAt_modifyAt _ p _ _ hget
    · intro hpos i0 hlast par hpar
      have hbeq : (position == "inside") = false := by simp [hpos]
      refine ⟨?_, ?_⟩
      · have hp : p.dropLast ++ [i0] = p := dropLast_append_of_getLast p i0 hlast
        have hsplit := getAt_append p.dropLast [i0] ed.wrapper
        rw [hp, hget, hpar] at hsplit
        cases par with
        | mk d ch =>
          have h2 : some selNode = (ch[i0]?).bind (getAt []) := hsplit
          cases hch : ch[i0]? with
          | none =>
            rw [hch] at h2
            simp at h2
          | some c' =>
            rw [hch] at h2
            have h3 : some selNode = some c' := h2
            simp only [childrenOf]
            rw [hch]
            exact h3.symm
      · simp only [addComponent, hsel, hfind, hbeq, Bool.false_eq_true, if_false, hlast]
        have := getAt_modifyAt
          (insertAddedAt (if position == "after" then i0 + 1 else i0) (createdOf nodes))
          p.dropLast ed.wrapper par hpar
        simpa [beq_iff_eq] using this

/-- Witness for `addComponent_insert_position`: inserting after the second
child of the wrapper lands at index 2 of the wrapper's children. -/
theorem addComponent_insert_position_witness :
    (childrenOf cexWrapper)[1]? = some (.mk { ccid := "n2" } []) ∧
    getAt [] (addComponent cexEd [cexNewNode] "after").2.wrapper
      = some (insertAddedAt 2 (createdOf [cexNewNode]) cexWrapper) := by
  have h := ((addComponent_insert_position cexEd [cexNewNode] "after").2
    "n2" [1] (.mk { ccid := "n2" } []) rfl rfl rfl).2 (by decide) 1 rfl cexWrapper rfl
  simpa using h

/-- Warnings recorded by the strip pass: one per node whose style map was
non-empty, over the whole forest. -/
theorem stripForest_warnings_length (l : List Comp) :
    (stripForest l).2.length
      = ((allForest l).filter (fun c => !(dataOf c).style.isEmpty)).length := by
  refine forest_ind
    (fun c => (stripComp c).2.length
      = ((allComp c).filter (fun x => !(dataOf x).style.isEmpty)).length)
    (fun m => (stripForest m).2.length
      = ((allForest m).filter (fun x => !(dataOf x).style.isEmpty)).length)
    ?_ ?_ ?_ l
  · intro d ch hQ
    by_cases h : d.style.isEmpty <;>
      simp [stripComp, allComp, List.filter_cons, dataOf, h, hQ]
  · simp [stripForest, allForest]
  · intro c cs hP hQ
    simp [stripForest, allForest, List.filter_append, hP, hQ]

/-- Every node of the processed forest ends with an empty style map. -/
theorem createdOf_style_empty (l : List Comp) :
    ∀ x ∈ allForest (createdOf l), (dataOf x).style = [] := by
  unfold createdOf
  refine forest_ind
    (fun c => ∀ x ∈ allComp (setEditableComp (stripComp c).1), (dataOf x).style = [])
    (fun m => ∀ x ∈ allForest (setEditableForest (stripForest m).1), (dataOf x).style = [])
    ?_ ?_ ?_ l
  · intro d ch hQ x hx
    by_cases h : d.style.isEmpty <;>
      simp only [stripComp, h, if_true, if_false, setEditableComp, allComp] at hx <;>
      rcases List.mem_cons.mp hx with rfl | hx'
    · by_cases ht : TEXT_TAGS.contains (lowerStr d.tagName) <;>
        simp_all [dataOf, List.isEmpty_iff]
    · exact hQ x hx'
    · by_cases ht : TEXT_TAGS.contains (lowerStr d.tagName) <;> simp_all [dataOf]
    · exact hQ x hx'
  · intro x hx
    simp [stripForest, setEditableForest, allForest] at hx
  · intro c cs hP hQ x hx
    simp only [stripForest, setEditableForest, allForest] at hx
    rcases List.mem_append.mp hx with hx' | hx'
    · exact hP x hx'
    · exact hQ x hx'

/-- Every node of an editable-marked forest whose lower-cased tag is a known
text-bearing tag is an editable text node. -/
theorem setEditableForest_marks (l : List Comp) :
    ∀ x ∈ allForest (setEditableForest l),
      TEXT_TAGS.contains (lowerStr (dataOf x).tagName) →
        (dataOf x).ctype = "text" ∧ (dataOf x).editable = true := by
  refine forest_ind
    (fun c => ∀ x ∈ allComp (setEditableComp c),
      TEXT_TAGS.contains (lowerStr (dataOf x).tagName) →
        (dataOf x).ctype = "text" ∧ (dataOf x).editable = true)
    (fun m => ∀ x ∈ allForest (setEditableForest m),
      TEXT_TAGS.contains (lowerStr (dataOf x).tagName) →
        (dataOf x).ctype = "text" ∧ (dataOf x).editable = true)
    ?_ ?_ ?_ l
  · intro d ch hQ x hx
    by_cases h : TEXT_TAGS.contains (lowerStr d.tagName) <;>
      simp only [setEditableComp, h, if_true, if_false, allComp] at hx <;>
      rcases List.mem_cons.mp hx with rfl | hx'
    · intro _
      simp [dataOf]
    · exact hQ x hx'
    · intro htag
      simp only [dataOf] at htag
      exact absurd htag (by simpa using h)
    · exact hQ x hx'
  · intro x hx
    simp [setEditableForest, allForest] at hx
  · intro c cs hP hQ x hx
    simp only [setEditableForest, allForest] at hx
    rcases List.mem_append.mp hx with hx' | hx'
    · exact hP x hx'
    · exact hQ x hx'

/-- The strip pass keeps the forest's arity. -/
theorem stripForest_length (l : List Comp) : (stripForest l).1.length = l.length := by
  induction l with
  | nil => rfl
  | cons c cs ih => simp [stripForest, ih]

/-- The editable-marking pass keeps the forest's arity. -/
theorem setEditableForest_length (l : List Comp) :
    (setEditableForest l).length = l.length := by
  induction l with
  | nil => rfl
  | cons c cs ih => simp [setEditableForest, ih]

/-- C6: on a successful `addComponent` call whose parsed markup contains
inline style declarations, exactly one warning is recorded per node whose
styles were stripped, every created node (descendants included) ends with an
empty style declaration map, every created node whose tag is a known
text-bearing tag is an editable text node, and the first created node is
auto-selected. -/
theorem addComponent_strip_and_mark (ed : Editor) (nodes : List Comp) (position : String)
    (ids warnings : List String) (ed' : Editor)
    (hcall : addComponent ed nodes position = (.ok ids warnings, ed'))
    (hstyled : ∃ c ∈ allForest nodes, (dataOf c).style ≠ []) :
    warnings.length
      = ((allForest nodes).filter (fun c => !(dataOf c).style.isEmpty)).length ∧
    (∀ c ∈ allForest (createdOf nodes), (dataOf c).style = []) ∧
    (∀ c ∈ allForest (createdOf nodes),
      TEXT_TAGS.contains (lowerStr (dataOf c).tagName) →
        (dataOf c).ctype = "text" ∧ (dataOf c).editable = true) ∧
    (nodes ≠ [] → ed'.selectedId = ((createdOf nodes).head?).map rootCcid) := by
  have hwsel : warnings = (stripForest nodes).2 ∧
      ed'.selectedId = (match (createdOf nodes).head? with
        | some c => some (rootCcid c)
        | none => ed.selectedId) := by
    simp only [addComponent] at hcall
    split at hcall
    · injection hcall with h1 h2
      injection h1 with h1a h1b
      exact ⟨h1b.symm, by rw [← h2]⟩
    · split at hcall
      · injection hcall with h1 h2
        injection h1
      · split at hcall
        · injection hcall with h1 h2
          injection h1 with h1a h1b
          exact ⟨h1b.symm, by rw [← h2]⟩
        · split at hcall
          · injection hcall with h1 h2
            injection h1
          · injection hcall with h1 h2
            injection h1 with h1a h1b
            exact ⟨h1b.symm, by rw [← h2]⟩
  refine ⟨?_, createdOf_style_empty nodes, ?_, ?_⟩
  · rw [hwsel.1]
    exact stripForest_warnings_length nodes
  · exact setEditableForest_marks (stripForest nodes).1
  · intro hne
    have hlen : (createdOf nodes).length = nodes.length := by
      unfold createdOf
      rw [setEditableForest_length, stripForest_length]
    rcases hc : (createdOf nodes).head? with _ | c
    · rw [List.head?_eq_none_iff] at hc
      rw [hc] at hlen
      simp only [List.length_nil] at hlen
      exact absurd (List.length_eq_zero.mp hlen.symm) hne
    · rw [hwsel.2, hc]
      rfl

example :
    addComponent cexEdNoSel [cexStyledNode] "after" =
      (.ok ["s1"] ["Stripped inline styles from s1"], cexEdAfter) := rfl

/-- Witness for `addComponent_strip_and_mark` at a concrete call. -/
theorem addComponent_strip_and_mark_witness :
    (["Stripped inline styles from s1"] : List String).length
      = ((allForest [cexStyledNode]).filter (fun c => !(dataOf c).style.isEmpty)).length ∧
    cexEdAfter.selectedId = ((createdOf [cexStyledNode]).head?).map rootCcid := by
  have h := addComponent_strip_and_mark cexEdNoSel [cexStyledNode] "after"
    ["s1"] ["Stripped inline styles from s1"] cexEdAfter rfl
    ⟨cexStyledNode, by simp [cexStyledNode, allForest, allComp], by decide⟩
  exact ⟨h.1, h.2.2.2 (by simp)⟩

/-- The visited counter never exceeds `maxCount`. -/
theorem walk_count_le (maxDepth maxCount : Nat) :
    ∀ c dep cnt, cnt ≤ maxCount →
      (walkComp maxDepth maxCount c dep cnt).2 ≤ maxCount := by
  refine comp_ind
    (fun c => ∀ dep cnt, cnt ≤ maxCount →
      (walkComp maxDepth maxCount c dep cnt).2 ≤ maxCount)
    (fun l => ∀ dep cnt, cnt ≤ maxCount →
      (walkList maxDepth maxCount l dep cnt).2 ≤ maxCount)
    ?_ ?_ ?_
  · intro d ch hQ dep cnt hcnt
    by_cases hb : maxCount ≤ cnt
    · simp [walkComp, hb, hcnt]
    · by_cases hd : dep < maxDepth
      · simpa [walkComp, hb, hd] using hQ (dep + 1) (cnt + 1) (by omega)
      · simp [walkComp, hb, hd]
        omega
  · intro dep cnt hcnt
    simpa [walkList] using hcnt
  · intro c cs hP hQ dep cnt hcnt
    simp only [walkList]
    exact hQ dep _ (hP dep cnt hcnt)

/-- A node returned from depth `dep ≤ maxDepth` spans at most
`maxDepth + 1 - dep` levels. -/
theorem walk_height_le (maxDepth maxCount : Nat) :
    ∀ c dep cnt t cnt', dep ≤ maxDepth →
      walkComp maxDepth maxCount c dep cnt = (some t, cnt') →
      heightT t + dep ≤ maxDepth + 1 := by
  refine comp_ind
    (fun c => ∀ dep cnt t cnt', dep ≤ maxDepth →
      walkComp maxDepth maxCount c dep cnt = (some t, cnt') →
      heightT t + dep ≤ maxDepth + 1)
    (fun l => ∀ dep cnt, dep ≤ maxDepth →
      heightF (walkList maxDepth maxCount l dep cnt).1 + dep ≤ maxDepth + 1)
    ?_ ?_ ?_
  · intro d ch hQ dep cnt t cnt' hdep h
    rw [walkComp] at h
    by_cases hb : maxCount ≤ cnt
    · rw [if_pos hb] at h
      injection h with h1 h2
      cases h1
    · rw [if_neg hb] at h
      by_cases hd : dep < maxDepth
      · simp only [hd, if_true] at h
        injection h with h1 h2
        injection h1 with h1
        subst h1
        simp only [heightT]
        have := hQ (dep + 1) (cnt + 1) (by omega)
        omega
      · simp only [hd, if_false] at h
        injection h with h1 h2
        injection h1 with h1
        subst h1
        simp only [heightT, heightF]
        omega
  · intro dep cnt hdep
    simp only [walkList, heightF]
    omega
  · intro c cs hP hQ dep cnt hdep
    rcases hr : walkComp maxDepth maxCount c dep cnt with ⟨o, cnt2⟩
    cases o with
    | none =>
      simp only [walkList, hr]
      exact hQ dep cnt2 hdep
    | some n =>
      simp only [walkList, hr, heightF]
      have h1 := hP dep cnt n cnt2 hdep hr
      have h2 := hQ dep cnt2 hdep
      omega

/-- C8, amended: `getTree` visits at most `maxCount` nodes and descends at
most `maxDepth` levels; when the depth limit stops descent into a node's
children the returned node reports `children_count` instead of its
children; when the visited-count budget runs out, the affected nodes are
silently omitted (no `children_count` is reported for the count budget —
see the counterexample). -/
theorem getTree_bounds (ed : Editor) (maxDepth maxCount : Nat) :
    (walkComp maxDepth maxCount ed.wrapper 0 0).2 ≤ maxCount ∧
    (∀ t, getTree ed maxDepth maxCount = some t → heightT t ≤ maxDepth + 1) ∧
    (∀ d ch dep cnt, maxDepth ≤ dep → cnt < maxCount →
      walkComp maxDepth maxCount (Comp.mk d ch) dep cnt =
        (some (.mk d.ccid d.tagName d.ctype (String.intercalate " " d.classes)
          (if d.ctype == "text" && !(d.content.data.isEmpty)
           then some (String.mk (d.content.data.take 80)) else none)
          [] (some ch.length)),
         cnt + 1)) := by
  refine ⟨walk_count_le maxDepth maxCount ed.wrapper 0 0 (by omega), ?_, ?_⟩
  · intro t h
    unfold getTree at h
    rcases hw : walkComp maxDepth maxCount ed.wrapper 0 0 with ⟨o, cnt'⟩
    rw [hw] at h
    simp only at h
    subst h
    simpa using walk_height_le maxDepth maxCount ed.wrapper 0 0 t cnt' (by omega) hw
  · intro d ch dep cnt hdep hcnt
    rw [walkComp]
    rw [if_neg (by omega)]
    simp only [Nat.not_lt.mpr hdep, if_false]

/-- C8 counterexample: with `maxCount = 1` the budget stops descent into the
root's children, but the returned root reports no `children_count` (it is
`none`) and just has an empty child list, refuting the claim that the
count budget triggers a `children_count` report. -/
theorem getTree_count_budget_cex :
    getTree { wrapper := .mk { ccid := "root" } [.mk { ccid := "child" } []],
              selectedId := none } 5 1
      = some (.mk "root" "div" "" "" none [] none) ∧
    ([Comp.mk { ccid := "child" } []] : List Comp) ≠ [] := ⟨rfl, by simp⟩

/-- Witness for `getTree_bounds`: with `maxDepth = 0` the depth limit is
hit at the root, which reports `children_count = 1`. -/
theorem getTree_bounds_witness :
    heightT (.mk "root" "div" "" "" none [] (some 1)) ≤ 0 + 1 ∧
    walkComp 0 10 (.mk { ccid := "root" } [.mk { ccid := "child" } []]) 0 0
      = (some (.mk "root" "div" "" "" none [] (some 1)), 1) := by
  have h := getTree_bounds
    { wrapper := .mk { ccid := "root" } [.mk { ccid := "child" } []],
      selectedId := none } 0 10
  exact ⟨h.2.1 _ rfl, h.2.2 { ccid := "root" } [.mk { ccid := "child" } []] 0 0
    (by omega) (by omega)⟩

/-- C2's failing path: with page A selected, searching for a label that is
neither an orphan nor on page A reaches page B, whose walk throws; the call
exits with page B still selected — the originally selected page A is not
restored on the exception path (the source has no try/finally). -/
theorem findSymbolByLabel_throw_no_restore :
    cexPages.selectedId = "A" ∧
    findSymbolByLabel [] cexPages "Header"
      = .error ("walk failed", { pages := [pageA, pageB], selectedId := "B" }) :=
  ⟨rfl, rfl⟩

/-- C9: a selector name without a leading `.` or `#` resolves exactly like
the same name with a `.` prefix, and the correction is reported. -/
theorem selector_prefix_resolution (api : SelectorApi) (hasSel : Bool) (name : String)
    (h1 : headChar name ≠ some '.') (h2 : headChar name ≠ some '#') :
    (resolveSelector api hasSel name).1 = (resolveSelector api hasSel ("." ++ name)).1 ∧
    (resolveSelector api hasSel name).2 = true := by
  have hcond : (headChar name == some '.' || headChar name == some '#') = false := by
    simp [h1, h2]
  have hn : normalizeSelector name = ("." ++ name, true) := by
    simp [normalizeSelector, hcond]
  have hd : headChar ("." ++ name) = some '.' := by
    unfold headChar
    rw [String.data_append]
    rfl
  have hn2 : normalizeSelector ("." ++ name) = ("." ++ name, false) := by
    simp [normalizeSelector, hd]
  unfold resolveSelector
  rw [hn, hn2]
  exact ⟨rfl, rfl⟩

/-- Witness for `selector_prefix_resolution` at the bare name `hero`. -/
theorem selector_prefix_resolution_witness :
    (resolveSelector cexSelectorApi true "hero").1
      = (resolveSelector cexSelectorApi true ".hero").1 ∧
    (resolveSelector cexSelectorApi true "hero").2 = true := by
  have h := selector_prefix_resolution cexSelectorApi true "hero" (by decide) (by decide)
  exact ⟨h.1.trans (by rfl), h.2⟩

end Silex
